import Mathlib

/-!
Shallow embedding of `src/binary_tree.rs` (repository `tree-samples-rs`).

The Rust code represents a binary tree as `Rc<RefCell<BinaryTreeNode>>` cells,
each node holding a display name, an integer key `data`, a weak parent
back-link and owned optional left/right children; node identity is a `Uuid`
compared by `is_same`.  We embed the heap of cells as an arena: a list of
nodes where a node's identity is its index in the list, child and parent
fields are `Option Nat` indices, and `is_same` becomes equality of optional
indices.  Loops that the Rust code runs on the mutable heap (all of them are
breadth-first queues or pointer-chasing loops that terminate exactly on
finite acyclic trees) are embedded as fuel-indexed recursions returning
`none` when fuel runs out, so every theorem about a run takes the shape
"if the run returns `some result` then ...".
-/

/-- One heap cell of `BinaryTreeNode` (`id` is the cell's arena index,
`name`/`data`/`parent`/`left`/`right` are the remaining fields). -/
structure BinaryTreeNode where
  name : String
  data : Nat
  parent : Option Nat
  left : Option Nat
  right : Option Nat
deriving Repr, DecidableEq

/-- The heap: node with identity `i` lives at index `i`. -/
abbrev Arena := List BinaryTreeNode

/-- `BinaryTree::is_same`: compares the `Uuid`s of two optional nodes; with
index-as-identity this is equality of the optional indices. -/
def is_same (v1 v2 : Option Nat) : Bool := v1 == v2

/-- `BinaryTree::count`, the breadth-first counting loop, fueled.  The queue
starts as `[node]`; each iteration pops the front, counts it and pushes the
left child then the right child. -/
def count (a : Arena) : Nat → List Nat → Option Nat
  | _, [] => some 0
  | 0, _ :: _ => none
  | fuel + 1, i :: q =>
    match a[i]? with
    | none => none
    | some n =>
      match count a fuel (q ++ n.left.toList ++ n.right.toList) with
      | none => none
      | some c => some (c + 1)

/-- `BinaryTree::flatten_top_down`, the breadth-first flattening loop, fueled:
identical queue discipline to `count` but collecting the visited nodes. -/
def flatten_top_down (a : Arena) : Nat → List Nat → Option (List Nat)
  | _, [] => some []
  | 0, _ :: _ => none
  | fuel + 1, i :: q =>
    match a[i]? with
    | none => none
    | some n =>
      match flatten_top_down a fuel (q ++ n.left.toList ++ n.right.toList) with
      | none => none
      | some rest => some (i :: rest)

/-- The loop body of `BinaryTree::leftmost`: follow `left` links, remembering
in `acc` the last node reached by a left step; return `acc` when the current
node has no left child. -/
def leftmost_loop (a : Arena) : Nat → Nat → Option Nat → Option (Option Nat)
  | 0, _, _ => none
  | fuel + 1, i, acc =>
    match a[i]? with
    | none => none
    | some n =>
      match n.left with
      | some l => leftmost_loop a fuel l (some l)
      | none => some acc

/-- `BinaryTree::leftmost` starts the loop with `leftmost = None`. -/
def leftmost (a : Arena) (fuel i : Nat) : Option (Option Nat) :=
  leftmost_loop a fuel i none

/-- One `if let Some(child) = ...` block of `BinaryTree::assign_parents`:
point the child (if present) back at node `i` and enqueue it. -/
def assign_child (a : Arena) (i : Nat) (q : List Nat) : Option Nat → Option (Arena × List Nat)
  | some c =>
    match a[c]? with
    | none => none
    | some cn => some (a.set c { cn with parent := some i }, q ++ [c])
  | none => some (a, q)

/-- `BinaryTree::assign_parents`, the breadth-first loop, fueled: pop a node,
set each present child's `parent` to the popped node (left child first, then
the right child on the updated heap), enqueue the children. -/
def assign_parents (a : Arena) : Nat → List Nat → Option Arena
  | _, [] => some a
  | 0, _ :: _ => none
  | fuel + 1, i :: q =>
    match a[i]? with
    | none => none
    | some n =>
      match assign_child a i q n.left with
      | none => none
      | some (a1, q1) =>
        match assign_child a1 i q1 n.right with
        | none => none
        | some (a2, q2) => assign_parents a2 fuel q2

/-- The inner climb loop of `BinaryTree::flatten_inorder` (lines 118-138):
while `root_parent` is present and `root` is the same node as `parent_right`,
move `root` up to `root_parent`, recompute `root_parent` and `parent_right`;
the final value of `root` (i.e. the last `root_parent`) is returned. -/
def inorder_climb (a : Arena) : Nat → Option Nat → Option Nat → Option Nat → Option (Option Nat)
  | 0, _, _, _ => none
  | fuel + 1, root, root_parent, parent_right =>
    match root_parent with
    | none => some none
    | some rp =>
      if ¬ (is_same root parent_right = true) then some (some rp)
      else
        match a[rp]? with
        | none => none
        | some rpn =>
          match rpn.parent with
          | none => inorder_climb a fuel (some rp) none none
          | some gp =>
            match a[gp]? with
            | none => none
            | some gpn => inorder_climb a fuel (some rp) (some gp) gpn.right

/-- The outer loop of `BinaryTree::flatten_inorder`, fueled.  State: the
current `root` (`none` terminates the loop), the `leftdone` flag and the
accumulated output.  Each iteration descends to the leftmost node when
`leftdone` is false, emits the current node, then either moves to the right
child, climbs via parent links, or stops at a parentless node. -/
def flatten_inorder_loop (a : Arena) : Nat → Option Nat → Bool → List Nat → Option (List Nat)
  | _, none, _, acc => some acc
  | 0, some _, _, _ => none
  | fuel + 1, some root_id, leftdone, acc =>
    let current? : Option Nat :=
      if leftdone then some root_id
      else
        match leftmost a (fuel + 1) root_id with
        | none => none
        | some lm => some (lm.getD root_id)
    match current? with
    | none => none
    | some current =>
      let acc := acc ++ [current]
      match a[current]? with
      | none => none
      | some cn =>
        match cn.right with
        | some r => flatten_inorder_loop a fuel (some r) false acc
        | none =>
          match cn.parent with
          | none => some acc
          | some p =>
            match a[p]? with
            | none => none
            | some pn =>
              match inorder_climb a (fuel + 1) (some current) (some p) pn.right with
              | none => none
              | some root' => flatten_inorder_loop a fuel root' true acc

/-- `BinaryTree::flatten_inorder` starting from node `i`. -/
def flatten_inorder (a : Arena) (fuel i : Nat) : Option (List Nat) :=
  flatten_inorder_loop a fuel (some i) false []

/-- Swapping the two child pointers of a node: the effect of
`let tmp = node.right.take(); node.right = node.left.take(); node.left = tmp`. -/
def swap_node (n : BinaryTreeNode) : BinaryTreeNode :=
  { n with left := n.right, right := n.left }

/-- `BinaryTree::invert_recursive`, fueled: invert the right subtree, then the
left subtree, then swap the children of the current node (whose fields were
read from the borrow taken before the recursive calls; on an acyclic heap the
recursion never touches the current node). -/
def invert_recursive (a : Arena) : Nat → Nat → Option Arena
  | 0, _ => none
  | fuel + 1, i =>
    match a[i]? with
    | none => none
    | some n =>
      let r1 : Option Arena :=
        match n.right with
        | some r => invert_recursive a fuel r
        | none => some a
      match r1 with
      | none => none
      | some a1 =>
        let r2 : Option Arena :=
          match n.left with
          | some l => invert_recursive a1 fuel l
          | none => some a1
        match r2 with
        | none => none
        | some a2 => some (a2.set i (swap_node n))

/-- `BinaryTree::invert_iterative`, the breadth-first loop, fueled: pop a
node, enqueue its right child then its left child, then swap its children. -/
def invert_iterative (a : Arena) : Nat → List Nat → Option Arena
  | _, [] => some a
  | 0, _ :: _ => none
  | fuel + 1, i :: q =>
    match a[i]? with
    | none => none
    | some n =>
      invert_iterative (a.set i (swap_node n)) fuel (q ++ n.right.toList ++ n.left.toList)

/-! ## Fixture utilities (`mod utils`) -/

/-- `utils::NODES_COUNT`. -/
def NODES_COUNT : Nat := 15

/-- `utils::populate_node_list`: `NODES_COUNT` fresh nodes (`new_node` gives
empty name, key 0, no parent, no children) relabelled `n0..n14` with
`data = index`. -/
def populate_node_list : Arena :=
  (List.range NODES_COUNT).map fun n =>
    { name := "n" ++ toString n, data := n, parent := none, left := none, right := none }

/-- The loop body of `utils::populate_balanced_binary_tree`'s wiring pass:
for node `n`, if `left_child = 2n+1 < NODES_COUNT` set `left`; then — with the
same guard `left_child < NODES_COUNT` as written in the source — set `right`
to `right_child = left_child + 1`. -/
def wire_step (a : Arena) (n : Nat) : Arena :=
  let left_child := n * 2 + 1
  let a1 :=
    if left_child < NODES_COUNT then
      match a[n]? with
      | some nd => a.set n { nd with left := some left_child }
      | none => a
    else a
  let right_child := left_child + 1
  if left_child < NODES_COUNT then
    match a1[n]? with
    | some nd => a1.set n { nd with right := some right_child }
    | none => a1
  else a1

/-- The child-wiring pass of `utils::populate_balanced_binary_tree` over
`0..NODES_COUNT`. -/
def wire_children (a : Arena) : Arena :=
  (List.range NODES_COUNT).foldl wire_step a

/-- Modelled from the spec: the alternative wiring recommended by the spec's
open question, in which the right-child assignment is guarded by its own
bound `right_child < NODES_COUNT` instead of reusing `left_child < NODES_COUNT`. -/
def wire_step_right_guard (a : Arena) (n : Nat) : Arena :=
  let left_child := n * 2 + 1
  let a1 :=
    if left_child < NODES_COUNT then
      match a[n]? with
      | some nd => a.set n { nd with left := some left_child }
      | none => a
    else a
  let right_child := left_child + 1
  if right_child < NODES_COUNT then
    match a1[n]? with
    | some nd => a1.set n { nd with right := some right_child }
    | none => a1
  else a1

/-- Modelled from the spec: the wiring pass using the per-child guard. -/
def wire_children_right_guard (a : Arena) : Arena :=
  (List.range NODES_COUNT).foldl wire_step_right_guard a

/-- `utils::populate_balanced_binary_tree`: wire the complete tree over the
fresh node list, then run `assign_parents` from the root (index 0).  `none`
only on fuel exhaustion, which does not occur at fuel 64. -/
def populate_balanced_binary_tree : Option Arena :=
  assign_parents (wire_children populate_node_list) 64 [0]

/-- The fixed key permutation of `utils::populate_balanced_binary_search_tree`. -/
def node_values : List Nat := [8, 4, 12, 2, 6, 10, 14, 1, 3, 5, 7, 9, 11, 13, 15]

/-- One `data` overwrite `v.1.borrow_mut().data = node_values[v.0]`. -/
def set_data (a : Arena) (i v : Nat) : Arena :=
  match a[i]? with
  | some n => a.set i { n with data := v }
  | none => a

/-- `utils::populate_balanced_binary_search_tree`: build the balanced tree,
flatten it top-down, and overwrite each flattened node's key with the fixed
permutation entry at its position. -/
def populate_balanced_binary_search_tree : Option Arena := do
  let a ← populate_balanced_binary_tree
  let flat ← flatten_top_down a 64 [0]
  pure (flat.enum.foldl (fun acc p => set_data acc p.2 (node_values.getD p.1 0)) a)

/-- The display name of node `i` in arena `a`. -/
def name_of (a : Arena) (i : Nat) : String :=
  ((a[i]?).map BinaryTreeNode.name).getD ""

/-- The key of node `i` in arena `a`. -/
def data_of (a : Arena) (i : Nat) : Nat :=
  ((a[i]?).map BinaryTreeNode.data).getD 0

/-! ## Concrete runs on the canonical fixtures -/

/-- Arena indices delivered by `flatten_inorder` on the canonical balanced tree. -/
def inorder_ids : Option (List Nat) := do
  let a ← populate_balanced_binary_tree
  flatten_inorder a 64 0

/-- Labels delivered by `flatten_inorder` on the canonical balanced tree. -/
def inorder_names : Option (List String) := do
  let a ← populate_balanced_binary_tree
  let l ← flatten_inorder a 64 0
  pure (l.map (name_of a))

/-- Labels delivered by `flatten_inorder` after `invert_recursive` on the
canonical balanced tree. -/
def inorder_names_after_invert_recursive : Option (List String) := do
  let a ← populate_balanced_binary_tree
  let a1 ← invert_recursive a 64 0
  let l ← flatten_inorder a1 64 0
  pure (l.map (name_of a1))

/-- Labels delivered by `flatten_inorder` after `invert_iterative` on the
canonical balanced tree. -/
def inorder_names_after_invert_iterative : Option (List String) := do
  let a ← populate_balanced_binary_tree
  let a1 ← invert_iterative a 64 [0]
  let l ← flatten_inorder a1 64 0
  pure (l.map (name_of a1))

/-- Labels delivered by `flatten_top_down` on the canonical balanced tree. -/
def top_down_names : Option (List String) := do
  let a ← populate_balanced_binary_tree
  let l ← flatten_top_down a 64 [0]
  pure (l.map (name_of a))

/-- Keys along `flatten_inorder` of the canonical balanced search tree. -/
def bst_inorder_keys : Option (List Nat) := do
  let a ← populate_balanced_binary_search_tree
  let l ← flatten_inorder a 64 0
  pure (l.map (data_of a))

/-- C1: on the canonical 15-node complete tree built by
`populate_balanced_binary_tree`, `flatten_inorder` from the root returns
exactly the nodes (arena indices 7,3,8,1,9,4,10,0,11,5,12,2,13,6,14) labeled
n7, n3, n8, n1, n9, n4, n10, n0, n11, n5, n12, n2, n13, n6, n14, in order. -/
theorem flatten_inorder_canonical :
    inorder_ids = some [7, 3, 8, 1, 9, 4, 10, 0, 11, 5, 12, 2, 13, 6, 14] ∧
    inorder_names =
      some ["n7", "n3", "n8", "n1", "n9", "n4", "n10", "n0",
            "n11", "n5", "n12", "n2", "n13", "n6", "n14"] := by
  decide

/-- C2: inverting the canonical 15-node tree with `invert_recursive` or with
`invert_iterative` and then flattening inorder yields exactly the reverse of
the original inorder label sequence. -/
theorem invert_then_inorder_canonical :
    inorder_names_after_invert_recursive =
      some ["n14", "n6", "n13", "n2", "n12", "n5", "n11", "n0",
            "n10", "n4", "n9", "n1", "n8", "n3", "n7"] ∧
    inorder_names_after_invert_iterative =
      some ["n14", "n6", "n13", "n2", "n12", "n5", "n11", "n0",
            "n10", "n4", "n9", "n1", "n8", "n3", "n7"] ∧
    inorder_names =
      some (["n14", "n6", "n13", "n2", "n12", "n5", "n11", "n0",
             "n10", "n4", "n9", "n1", "n8", "n3", "n7"].reverse) := by
  decide

/-- C6: `flatten_top_down` on the canonical complete tree of size
`NODES_COUNT = 15` returns exactly `NODES_COUNT` nodes labeled, in output
order, "n0", "n1", ..., "n14". -/
theorem flatten_top_down_canonical :
    top_down_names = some ((List.range NODES_COUNT).map fun n => "n" ++ toString n) ∧
    (top_down_names.map List.length) = some NODES_COUNT := by
  decide

/-- C8: on the tree built by `populate_balanced_binary_search_tree`, the keys
along `flatten_inorder` of the root are exactly 1, 2, ..., 15, hence strictly
increasing. -/
theorem bst_inorder_keys_sorted :
    bst_inorder_keys = some ((List.range NODES_COUNT).map fun n => n + 1) ∧
    List.Chain' (· < ·) (bst_inorder_keys.getD []) := by
  refine ⟨by decide, ?_⟩
  rw [List.chain'_iff_pairwise]
  decide

/-- C9: in `populate_balanced_binary_tree` with `NODES_COUNT = 15`, guarding
the right-child assignment by `left_child < NODES_COUNT` is equivalent to
guarding it by `right_child < NODES_COUNT`: whenever the guard passes,
`right_child = 2n+2` is also below `NODES_COUNT` (so the access
`nodes[right_child]` is in bounds of the 15-element node list), the wiring
equals the wiring with the per-child guard, and node `n` receives right child
`2n+2` exactly when `2n+2 < NODES_COUNT`. -/
theorem right_child_guard_equiv :
    (∀ n : Nat, n * 2 + 1 < NODES_COUNT → n * 2 + 1 + 1 < NODES_COUNT) ∧
    (∀ n : Nat, n * 2 + 1 < NODES_COUNT ↔ n * 2 + 2 < NODES_COUNT) ∧
    wire_children populate_node_list = wire_children_right_guard populate_node_list ∧
    populate_node_list.length = NODES_COUNT ∧
    (∀ n, n < NODES_COUNT →
      ((wire_children populate_node_list)[n]?.bind BinaryTreeNode.right) =
        if n * 2 + 2 < NODES_COUNT then some (n * 2 + 2) else none) := by
  refine ⟨?_, ?_, by decide, by decide, by decide⟩
  · intro n h
    simp only [NODES_COUNT] at h ⊢
    omega
  · intro n
    simp only [NODES_COUNT]
    omega

/-- Witness for `right_child_guard_equiv` at `n = 3`. -/
theorem right_child_guard_equiv_witness :
    3 * 2 + 1 + 1 < NODES_COUNT ∧
    ((wire_children populate_node_list)[3]?.bind BinaryTreeNode.right) =
      (if 3 * 2 + 2 < NODES_COUNT then some (3 * 2 + 2) else none) :=
  ⟨right_child_guard_equiv.1 3 (by decide), right_child_guard_equiv.2.2.2.2 3 (by decide)⟩

/-! ## Counting agrees with top-down flattening (same breadth-first loop) -/

/-- The counting loop and the flattening loop follow the same queue
discipline, so on any arena, fuel and queue, `count` is the length of
`flatten_top_down` whenever the latter is defined (and fails when it fails). -/
theorem count_eq_length_flatten (a : Arena) :
    ∀ (fuel : Nat) (q : List Nat),
      count a fuel q = (flatten_top_down a fuel q).map List.length := by
  intro fuel
  induction fuel with
  | zero =>
    intro q
    cases q <;> simp [count, flatten_top_down]
  | succ fuel ih =>
    intro q
    cases q with
    | nil => simp [count, flatten_top_down]
    | cons i q =>
      simp only [count, flatten_top_down]
      cases h : a[i]? with
      | none => rfl
      | some n =>
        simp only [Option.some_bind]
        rw [ih]
        cases hf : flatten_top_down a fuel (q ++ n.left.toList ++ n.right.toList) <;> simp

/-- C10: whenever the breadth-first flattening from a node terminates with a
list, the breadth-first count from that node terminates with exactly that
list's length, which is at least 1 (the starting node is always visited). -/
theorem count_matches_flatten_top_down (a : Arena) (fuel i : Nat) (l : List Nat)
    (h : flatten_top_down a fuel [i] = some l) :
    count a fuel [i] = some l.length ∧ 1 ≤ l.length := by
  refine ⟨by rw [count_eq_length_flatten, h]; rfl, ?_⟩
  cases fuel with
  | zero => simp [flatten_top_down] at h
  | succ fuel =>
    simp only [flatten_top_down] at h
    cases hn : a[i]? with
    | none => rw [hn] at h; exact absurd h (by simp)
    | some n =>
      rw [hn] at h
      simp only [Option.some_bind] at h
      cases hf : flatten_top_down a fuel ([] ++ n.left.toList ++ n.right.toList) with
      | none => rw [hf] at h; exact absurd h (by simp)
      | some rest =>
        rw [hf] at h
        simp only [Option.some_bind, Option.some.injEq] at h
        simp [← h]

/-- Witness for `count_matches_flatten_top_down` on the canonical wired tree. -/
theorem count_matches_flatten_top_down_witness :
    count (wire_children populate_node_list) 16 [0] =
      some (List.length [0, 1, 2, 3, 4, 5, 6, 7, 8, 9, 10, 11, 12, 13, 14]) ∧
    1 ≤ List.length ([0, 1, 2, 3, 4, 5, 6, 7, 8, 9, 10, 11, 12, 13, 14] : List Nat) :=
  count_matches_flatten_top_down (wire_children populate_node_list) 16 0
    [0, 1, 2, 3, 4, 5, 6, 7, 8, 9, 10, 11, 12, 13, 14] (by decide)

/-! ## Correctness of `leftmost` -/

/-- Modelled from the spec's description of `leftmost`: follow left-child
links from `i` until a node with no left child is reached, and return that
node (which may be `i` itself).  Used as the specification-side function the
loop is compared against. -/
def follow_left_links (a : Arena) : Nat → Nat → Option Nat
  | 0, _ => none
  | fuel + 1, i =>
    match a[i]? with
    | none => none
    | some n =>
      match n.left with
      | none => some i
      | some l => follow_left_links a fuel l


/-- Invariant of the `leftmost` loop: starting from `i` with accumulator
`none` or `some i`, a successful run agrees with chasing left links, a `none`
result means the accumulator was never written (no left step at all), and a
`some j` result points at a node with no left child. -/
theorem leftmost_loop_spec (a : Arena) :
    ∀ (fuel i : Nat) (acc res : Option Nat),
      (acc = none ∨ acc = some i) →
      leftmost_loop a fuel i acc = some res →
      follow_left_links a fuel i = some (res.getD i) ∧
      (res = none → acc = none ∧ ∃ n, a[i]? = some n ∧ n.left = none) ∧
      (∀ j, res = some j → ∃ n, a[j]? = some n ∧ n.left = none) := by
  intro fuel
  induction fuel with
  | zero => intro i acc res _ h; simp [leftmost_loop] at h
  | succ fuel ih =>
    intro i acc res hacc h
    simp only [leftmost_loop] at h
    split at h
    · exact absurd h (by simp)
    · rename_i n hn
      split at h
      · rename_i l hl
        have step := ih l (some l) res (Or.inr rfl) h
        have hne : res ≠ none := fun h0 => absurd (step.2.1 h0).1 (by simp)
        refine ⟨?_, fun h0 => absurd h0 hne, step.2.2⟩
        cases res with
        | none => exact absurd rfl hne
        | some j => simpa [follow_left_links, hn, hl] using step.1
      · rename_i hl
        simp only [Option.some.injEq] at h
        subst h
        refine ⟨?_, fun hres => ⟨hres, n, hn, hl⟩, ?_⟩
        · rcases hacc with h0 | h0 <;>
            (subst h0; simp [follow_left_links, hn, hl])
        · intro j hj
          rcases hacc with h0 | h0
          · rw [h0] at hj; exact absurd hj (by simp)
          · rw [h0] at hj
            simp only [Option.some.injEq] at hj
            subst hj
            exact ⟨n, hn, hl⟩

/-- C7: whenever the `leftmost` loop terminates on node `i`, its result is
absent iff `i` has no left child; and a present result `j` is exactly the
node reached from `i` by repeatedly following left links until a node with no
left child is reached, and is never `i` itself. -/
theorem leftmost_correct (a : Arena) (fuel i : Nat) (res : Option Nat)
    (h : leftmost a fuel i = some res) :
    (∃ n, a[i]? = some n ∧ (res = none ↔ n.left = none)) ∧
    (∀ j, res = some j →
      follow_left_links a fuel i = some j ∧
      (∃ nj, a[j]? = some nj ∧ nj.left = none) ∧ j ≠ i) := by
  have main := leftmost_loop_spec a fuel i none res (Or.inl rfl) h
  cases fuel with
  | zero => simp [leftmost, leftmost_loop] at h
  | succ fuel =>
    have h' := h
    simp only [leftmost, leftmost_loop] at h'
    split at h'
    · exact absurd h' (by simp)
    · rename_i n hn
      refine ⟨⟨n, hn, ?_, ?_⟩, ?_⟩
      · intro h0
        obtain ⟨m, hm, hml⟩ := (main.2.1 h0).2
        rw [hn] at hm
        simp only [Option.some.injEq] at hm
        rw [← hm] at hml
        exact hml
      · intro hleft
        rw [hleft] at h'
        simp only [Option.some.injEq] at h'
        exact h'.symm
      · intro j hj
        obtain ⟨nj, hnj, hnjl⟩ := main.2.2 j hj
        refine ⟨by simpa [hj] using main.1, ⟨nj, hnj, hnjl⟩, ?_⟩
        intro hji
        subst hji
        rw [hn] at hnj
        simp only [Option.some.injEq] at hnj
        rw [← hnj] at hnjl
        rw [hnjl] at h'
        rw [hj] at h'
        simp at h'

/-- Witness for `leftmost_correct` at the canonical root, whose leftmost
descendant is node 7. -/
theorem leftmost_correct_witness :
    (∃ n, (wire_children populate_node_list)[0]? = some n ∧
      ((some 7 : Option Nat) = none ↔ n.left = none)) ∧
    (∀ j, (some 7 : Option Nat) = some j →
      follow_left_links (wire_children populate_node_list) 16 0 = some j ∧
      (∃ nj, (wire_children populate_node_list)[j]? = some nj ∧ nj.left = none) ∧ j ≠ 0) :=
  leftmost_correct (wire_children populate_node_list) 16 0 (some 7) (by decide)

/-! ## Tree skeletons

A finite acyclic binary tree living in the arena is described by an inductive
skeleton recording the arena index of every node; `represents` checks that the
skeleton matches the arena's `left`/`right` pointers (it does not constrain
`parent`, which the Rust structure maintains separately), and `Nodup` of the
skeleton's index list is the acyclicity/no-sharing hypothesis. -/

/-- Skeleton of an optional subtree: `nil` for an absent child, `node` with
the arena index and the two child skeletons. -/
inductive OTree where
  | nil : OTree
  | node (id : Nat) (l r : OTree) : OTree
deriving Repr, DecidableEq

/-- All arena indices of a skeleton, root first. -/
def OTree.ids : OTree → List Nat
  | .nil => []
  | .node i l r => i :: (l.ids ++ r.ids)

/-- The mirror image of a skeleton: children swapped at every node. -/
def OTree.mirror : OTree → OTree
  | .nil => .nil
  | .node i l r => .node i r.mirror l.mirror

/-- `represents a t o`: the optional pointer `o` points at a subtree of arena
`a` shaped exactly like `t`, with matching indices. -/
def represents (a : Arena) : OTree → Option Nat → Bool
  | .nil, none => true
  | .node i l r, some j =>
    i == j &&
    (match a[i]? with
     | none => false
     | some n => represents a l n.left && represents a r n.right)
  | _, _ => false

theorem represents_nil_iff (a : Arena) (o : Option Nat) :
    represents a .nil o = true ↔ o = none := by
  cases o <;> simp [represents]

theorem represents_node_iff (a : Arena) (i : Nat) (l r : OTree) (o : Option Nat) :
    represents a (.node i l r) o = true ↔
      o = some i ∧ ∃ n, a[i]? = some n ∧
        represents a l n.left = true ∧ represents a r n.right = true := by
  cases o with
  | none => simp [represents]
  | some j =>
    simp only [represents, Bool.and_eq_true, beq_iff_eq, Option.some.injEq]
    constructor
    · rintro ⟨rfl, h⟩
      refine ⟨rfl, ?_⟩
      cases hn : a[i]? with
      | none => rw [hn] at h; simp at h
      | some n => rw [hn] at h; exact ⟨n, rfl, by simpa using h⟩
    · rintro ⟨rfl, n, hn, h1, h2⟩
      exact ⟨rfl, by rw [hn]; simp [h1, h2]⟩

/-- `represents` only inspects the arena at the skeleton's own indices. -/
theorem represents_congr (a a' : Arena) :
    ∀ (t : OTree) (o : Option Nat),
      (∀ j, j ∈ t.ids → a'[j]? = a[j]?) →
      represents a t o = true → represents a' t o = true := by
  intro t
  induction t with
  | nil => intro o _ h; rw [represents_nil_iff] at h ⊢; exact h
  | node i l r ihl ihr =>
    intro o hsame h
    rw [represents_node_iff] at h ⊢
    obtain ⟨rfl, n, hn, h1, h2⟩ := h
    refine ⟨rfl, n, ?_, ?_, ?_⟩
    · rw [hsame i (by simp [OTree.ids]), hn]
    · exact ihl n.left (fun j hj => hsame j (by simp [OTree.ids, hj])) h1
    · exact ihr n.right (fun j hj => hsame j (by simp [OTree.ids, hj])) h2

/-- The skeleton's index list is permuted, not changed, by mirroring. -/
theorem ids_mirror_perm : ∀ t : OTree, List.Perm t.mirror.ids t.ids := by
  intro t
  induction t with
  | nil => simp [OTree.mirror, OTree.ids]
  | node i l r ihl ihr =>
    simp only [OTree.mirror, OTree.ids]
    exact List.Perm.cons i ((ihr.append ihl).trans List.perm_append_comm)

theorem mem_ids_mirror (t : OTree) (j : Nat) : j ∈ t.mirror.ids ↔ j ∈ t.ids :=
  (ids_mirror_perm t).mem_iff

/-- Swapping a node's children twice restores the node. -/
theorem swap_node_involutive (n : BinaryTreeNode) : swap_node (swap_node n) = n := rfl

/-- `MirroredOn a a' S`: arena `a'` is arena `a` with the children of exactly
the nodes in `S` swapped; every other entry — and every non-child field of
every entry — is untouched. -/
def MirroredOn (a a' : Arena) (S : Nat → Prop) : Prop :=
  a'.length = a.length ∧
  ∀ j, (S j → a'[j]? = (a[j]?).map swap_node) ∧ (¬ S j → a'[j]? = a[j]?)

theorem mirrored_refl (a : Arena) (S : Nat → Prop) (h : ∀ j, ¬ S j) :
    MirroredOn a a S :=
  ⟨rfl, fun j => ⟨fun hS => absurd hS (h j), fun _ => rfl⟩⟩

theorem mirrored_congr_pred {a a' : Arena} {S S' : Nat → Prop}
    (hiff : ∀ j, S j ↔ S' j) (h : MirroredOn a a' S) : MirroredOn a a' S' :=
  ⟨h.1, fun j => ⟨fun hS => (h.2 j).1 ((hiff j).mpr hS),
                  fun hS => (h.2 j).2 (fun c => hS ((hiff j).mp c))⟩⟩

/-- Composing two disjoint mirroring passes mirrors the union. -/
theorem mirrored_comp {a a1 a2 : Arena} {S1 S2 : Nat → Prop}
    (h1 : MirroredOn a a1 S1) (h2 : MirroredOn a1 a2 S2)
    (hdisj : ∀ j, ¬ (S1 j ∧ S2 j)) :
    MirroredOn a a2 (fun j => S1 j ∨ S2 j) := by
  refine ⟨h2.1.trans h1.1, fun j => ⟨?_, ?_⟩⟩
  · rintro (hS | hS)
    · rw [(h2.2 j).2 (fun c => hdisj j ⟨hS, c⟩), (h1.2 j).1 hS]
    · rw [(h2.2 j).1 hS, (h1.2 j).2 (fun c => hdisj j ⟨c, hS⟩)]
  · intro hS
    rw [(h2.2 j).2 (fun c => hS (Or.inr c)), (h1.2 j).2 (fun c => hS (Or.inl c))]

/-- Appending one extra swapped node on the output side. -/
theorem mirrored_set {a a2 : Arena} {S : Nat → Prop} {i : Nat} {n : BinaryTreeNode}
    (h : MirroredOn a a2 S) (hn : a[i]? = some n) (hiS : ¬ S i) :
    MirroredOn a (a2.set i (swap_node n)) (fun j => S j ∨ j = i) := by
  have hlen : i < a2.length := by
    rw [h.1]
    exact (List.getElem?_eq_some.mp hn).1
  refine ⟨by rw [List.length_set, h.1], fun j => ⟨?_, ?_⟩⟩
  · rintro (hS | rfl)
    · have hne : i ≠ j := fun c => hiS (c ▸ hS)
      rw [List.getElem?_set_ne hne, (h.2 j).1 hS]
    · rw [List.getElem?_set_self hlen, hn]
      rfl
  · intro hS
    have hne : i ≠ j := fun c => hS (Or.inr c.symm)
    rw [List.getElem?_set_ne hne, (h.2 j).2 (fun c => hS (Or.inl c))]

/-- Prepending one extra swapped node on the input side. -/
theorem mirrored_set_left {a a' : Arena} {S : Nat → Prop} {i : Nat} {n : BinaryTreeNode}
    (hn : a[i]? = some n) (hiS : ¬ S i)
    (h : MirroredOn (a.set i (swap_node n)) a' S) :
    MirroredOn a a' (fun j => j = i ∨ S j) := by
  have hlen : i < a.length := (List.getElem?_eq_some.mp hn).1
  refine ⟨h.1.trans (List.length_set a i (swap_node n) ▸ rfl), fun j => ⟨?_, ?_⟩⟩
  · rintro (rfl | hS)
    · rw [(h.2 j).2 hiS, List.getElem?_set_self hlen, hn]
      rfl
    · have hne : i ≠ j := fun c => hiS (c ▸ hS)
      rw [(h.2 j).1 hS, List.getElem?_set_ne hne]
  · intro hS
    have hne : i ≠ j := fun c => hS (Or.inl c.symm)
    rw [(h.2 j).2 (fun c => hS (Or.inr c)), List.getElem?_set_ne hne]

/-- Two mirroring passes over the same index set cancel. -/
theorem mirrored_twice_eq {a a1 a2 : Arena} {S S' : Nat → Prop}
    (h1 : MirroredOn a a1 S) (h2 : MirroredOn a1 a2 S')
    (hiff : ∀ j, S j ↔ S' j) : a2 = a := by
  refine List.ext_getElem? (fun j => ?_)
  by_cases hS : S j
  · rw [(h2.2 j).1 ((hiff j).mp hS), (h1.2 j).1 hS, Option.map_map]
    cases h : a[j]? with
    | none => rfl
    | some n => simp [Function.comp, swap_node_involutive]
  · rw [(h2.2 j).2 (fun c => hS ((hiff j).mpr c)), (h1.2 j).2 hS]

/-- Mirroring the arena turns a representation of `t` into one of `t.mirror`. -/
theorem represents_mirror :
    ∀ (t : OTree) (a a' : Arena) (o : Option Nat) (S : Nat → Prop),
      represents a t o = true → (∀ j, j ∈ t.ids → S j) → MirroredOn a a' S →
      represents a' t.mirror o = true := by
  intro t
  induction t with
  | nil =>
    intro a a' o S h _ _
    rw [represents_nil_iff] at h
    rw [OTree.mirror, represents_nil_iff]
    exact h
  | node i l r ihl ihr =>
    intro a a' o S h hmem hmirror
    rw [represents_node_iff] at h
    obtain ⟨rfl, n, hn, h1, h2⟩ := h
    rw [OTree.mirror, represents_node_iff]
    refine ⟨rfl, swap_node n, ?_, ?_, ?_⟩
    · rw [(hmirror.2 i).1 (hmem i (by simp [OTree.ids])), hn]
      rfl
    · exact ihr a a' n.right S h2 (fun j hj => hmem j (by simp [OTree.ids, hj])) hmirror
    · exact ihl a a' n.left S h1 (fun j hj => hmem j (by simp [OTree.ids, hj])) hmirror

theorem represents_none_nil {a : Arena} {t : OTree} (h : represents a t none = true) :
    t = OTree.nil := by
  cases t with
  | nil => rfl
  | node i l r => simp [represents] at h

/-- Assembling the final swap of `invert_recursive`: mirroring the right
subtree, then the left subtree, then swapping node `i` mirrors the whole
subtree rooted at `i`. -/
theorem invert_rec_finish {a a1 a2 : Arena} {i : Nat} {n : BinaryTreeNode} {l r : OTree}
    (hn : a[i]? = some n)
    (hm1 : MirroredOn a a1 (· ∈ r.ids))
    (hm2 : MirroredOn a1 a2 (· ∈ l.ids))
    (hil : i ∉ l.ids) (hir : i ∉ r.ids) (hdisj : l.ids.Disjoint r.ids) :
    MirroredOn a (a2.set i (swap_node n)) (· ∈ (OTree.node i l r).ids) := by
  have hcomp := mirrored_comp hm1 hm2 (fun j hc => hdisj hc.2 hc.1)
  have hset := mirrored_set hcomp hn (fun c => c.elim (fun hc => hir hc) (fun hc => hil hc))
  refine mirrored_congr_pred (fun j => ?_) hset
  simp only [OTree.ids, List.mem_cons, List.mem_append]
  tauto

/-- A successful `invert_recursive` run on a subtree represented by skeleton
`t` (with distinct indices) swaps the children of exactly the nodes of `t`. -/
theorem invert_recursive_mirrors :
    ∀ (t : OTree) (a : Arena) (i fuel : Nat) (a' : Arena),
      represents a t (some i) = true → t.ids.Nodup →
      invert_recursive a fuel i = some a' →
      MirroredOn a a' (· ∈ t.ids) := by
  intro t
  induction t with
  | nil =>
    intro a i fuel a' hrep _ _
    rw [represents_nil_iff] at hrep
    exact absurd hrep (by simp)
  | node tid l r ihl ihr =>
    intro a i fuel a' hrep hnd h
    rw [represents_node_iff] at hrep
    obtain ⟨hti, n, hn, hrl, hrr⟩ := hrep
    obtain rfl : i = tid := Option.some.inj hti
    simp only [OTree.ids] at hnd
    have hi := (List.nodup_cons.mp hnd).1
    have htail := (List.nodup_cons.mp hnd).2
    have hil : i ∉ l.ids := fun c => hi (List.mem_append.mpr (Or.inl c))
    have hir : i ∉ r.ids := fun c => hi (List.mem_append.mpr (Or.inr c))
    have hndl : l.ids.Nodup := (List.nodup_append.mp htail).1
    have hndr : r.ids.Nodup := (List.nodup_append.mp htail).2.1
    have hdisj : l.ids.Disjoint r.ids := (List.nodup_append.mp htail).2.2
    cases fuel with
    | zero => simp [invert_recursive] at h
    | succ fuel =>
      simp only [invert_recursive] at h
      rw [hn] at h
      simp only [] at h
      -- isolate the right-child pass
      have step1 : ∃ a1, (match n.right with
          | some rr => invert_recursive a fuel rr
          | none => some a) = some a1 ∧ MirroredOn a a1 (· ∈ r.ids) := by
        cases hrc : n.right with
        | some rr =>
          rw [hrc] at hrr h
          simp only [] at h
          cases h1 : invert_recursive a fuel rr with
          | none => rw [h1] at h; simp at h
          | some a1 => exact ⟨a1, h1, ihr a rr fuel a1 hrr hndr h1⟩
        | none =>
          rw [hrc] at hrr
          obtain rfl := represents_none_nil hrr
          exact ⟨a, rfl, mirrored_refl a _ (by simp [OTree.ids])⟩
      obtain ⟨a1, h1, hm1⟩ := step1
      rw [h1] at h
      simp only [] at h
      have hframe : ∀ j, j ∈ l.ids → a1[j]? = a[j]? :=
        fun j hj => (hm1.2 j).2 (fun c => hdisj hj c)
      -- isolate the left-child pass
      have step2 : ∃ a2, (match n.left with
          | some ll => invert_recursive a1 fuel ll
          | none => some a1) = some a2 ∧ MirroredOn a1 a2 (· ∈ l.ids) := by
        cases hlc : n.left with
        | some ll =>
          rw [hlc] at hrl h
          simp only [] at h
          cases h2 : invert_recursive a1 fuel ll with
          | none => rw [h2] at h; simp at h
          | some a2 =>
            exact ⟨a2, h2, ihl a1 ll fuel a2
              (represents_congr a a1 l (some ll) hframe hrl) hndl h2⟩
        | none =>
          rw [hlc] at hrl
          obtain rfl := represents_none_nil hrl
          exact ⟨a1, rfl, mirrored_refl a1 _ (by simp [OTree.ids])⟩
      obtain ⟨a2, h2, hm2⟩ := step2
      rw [h2] at h
      simp only [] at h
      obtain rfl : a' = a2.set i (swap_node n) := (Option.some.inj h).symm
      exact invert_rec_finish hn hm1 hm2 hil hir hdisj

/-! ## The iterative inversion, via forests of subtrees -/

/-- The forest of subtrees denoted by an optional child pointer: empty for an
absent child, a singleton otherwise. -/
def OTree.toForest : OTree → List OTree
  | .nil => []
  | .node i l r => [.node i l r]

/-- All arena indices of a forest. -/
def forest_ids (ts : List OTree) : List Nat := (ts.map OTree.ids).flatten

/-- `forest_rep a ts q`: the queue `q` points, element by element, at
subtrees of `a` shaped like the skeletons `ts`. -/
def forest_rep (a : Arena) : List OTree → List Nat → Bool
  | [], [] => true
  | t :: ts, i :: q => represents a t (some i) && forest_rep a ts q
  | _, _ => false

theorem forest_ids_cons (t : OTree) (ts : List OTree) :
    forest_ids (t :: ts) = t.ids ++ forest_ids ts := by
  simp [forest_ids]

theorem forest_ids_append (ts1 ts2 : List OTree) :
    forest_ids (ts1 ++ ts2) = forest_ids ts1 ++ forest_ids ts2 := by
  simp [forest_ids]

theorem forest_ids_toForest (t : OTree) : forest_ids t.toForest = t.ids := by
  cases t <;> simp [OTree.toForest, forest_ids, OTree.ids]

theorem forest_rep_empty_queue {a : Arena} {ts : List OTree}
    (h : forest_rep a ts [] = true) : ts = [] := by
  cases ts with
  | nil => rfl
  | cons t ts => simp [forest_rep] at h

theorem forest_rep_append {a : Arena} :
    ∀ {ts1 : List OTree} {q1 : List Nat} {ts2 : List OTree} {q2 : List Nat},
      forest_rep a ts1 q1 = true → forest_rep a ts2 q2 = true →
      forest_rep a (ts1 ++ ts2) (q1 ++ q2) = true := by
  intro ts1
  induction ts1 with
  | nil =>
    intro q1 ts2 q2 h1 h2
    cases q1 with
    | nil => simpa using h2
    | cons i q1 => simp [forest_rep] at h1
  | cons t ts ih =>
    intro q1 ts2 q2 h1 h2
    cases q1 with
    | nil => simp [forest_rep] at h1
    | cons i q1 =>
      simp only [forest_rep, Bool.and_eq_true] at h1
      simpa [forest_rep, h1.1] using ih h1.2 h2

theorem forest_rep_child {a : Arena} {t : OTree} {o : Option Nat}
    (h : represents a t o = true) : forest_rep a t.toForest o.toList = true := by
  cases t with
  | nil =>
    rw [represents_nil_iff] at h
    subst h
    rfl
  | node i l r =>
    cases o with
    | none => simp [represents] at h
    | some j => simpa [OTree.toForest, Option.toList, forest_rep] using h

theorem forest_rep_congr {a a' : Arena} :
    ∀ {ts : List OTree} {q : List Nat},
      (∀ j, j ∈ forest_ids ts → a'[j]? = a[j]?) →
      forest_rep a ts q = true → forest_rep a' ts q = true := by
  intro ts
  induction ts with
  | nil =>
    intro q _ h
    cases q with
    | nil => rfl
    | cons i q => simp [forest_rep] at h
  | cons t ts ih =>
    intro q hsame h
    cases q with
    | nil => simp [forest_rep] at h
    | cons i q =>
      simp only [forest_rep, Bool.and_eq_true] at h ⊢
      refine ⟨represents_congr a a' t (some i)
        (fun j hj => hsame j (by rw [forest_ids_cons]; exact List.mem_append.mpr (Or.inl hj))) h.1,
        ih (fun j hj => hsame j (by rw [forest_ids_cons]; exact List.mem_append.mpr (Or.inr hj))) h.2⟩

/-- A successful `invert_iterative` run on a queue representing a forest with
globally distinct indices swaps the children of exactly the forest's nodes. -/
theorem invert_iterative_mirrors :
    ∀ (fuel : Nat) (ts : List OTree) (a : Arena) (q : List Nat) (a' : Arena),
      forest_rep a ts q = true → (forest_ids ts).Nodup →
      invert_iterative a fuel q = some a' →
      MirroredOn a a' (· ∈ forest_ids ts) := by
  intro fuel
  induction fuel with
  | zero =>
    intro ts a q a' hrep hnd h
    cases q with
    | nil =>
      obtain rfl := forest_rep_empty_queue hrep
      have ha : a' = a := (Option.some.inj h).symm
      rw [ha]
      exact mirrored_refl a _ (by simp [forest_ids])
    | cons i q => simp [invert_iterative] at h
  | succ fuel ih =>
    intro ts a q a' hrep hnd h
    cases q with
    | nil =>
      obtain rfl := forest_rep_empty_queue hrep
      have ha : a' = a := (Option.some.inj h).symm
      rw [ha]
      exact mirrored_refl a _ (by simp [forest_ids])
    | cons i q =>
      cases ts with
      | nil => simp [forest_rep] at hrep
      | cons t ts =>
        simp only [forest_rep, Bool.and_eq_true] at hrep
        obtain ⟨hrt, hrts⟩ := hrep
        cases t with
        | nil => exact absurd ((represents_nil_iff a (some i)).mp hrt) (by simp)
        | node tid l r =>
          rw [represents_node_iff] at hrt
          obtain ⟨hti, n, hn, hrl, hrr⟩ := hrt
          obtain rfl : i = tid := Option.some.inj hti
          -- decompose the distinctness hypothesis
          rw [forest_ids_cons] at hnd
          simp only [OTree.ids, List.cons_append] at hnd
          have hi := (List.nodup_cons.mp hnd).1
          have htail := (List.nodup_cons.mp hnd).2
          -- run the loop body
          simp only [invert_iterative] at h
          rw [hn] at h
          simp only [] at h
          -- the new queue represents the tail forest plus the two child forests
          have hrep0 : forest_rep a (ts ++ r.toForest ++ l.toForest)
              (q ++ n.right.toList ++ n.left.toList) = true :=
            forest_rep_append (forest_rep_append hrts (forest_rep_child hrr)) (forest_rep_child hrl)
          have hids1 : forest_ids (ts ++ r.toForest ++ l.toForest) =
              forest_ids ts ++ r.ids ++ l.ids := by
            rw [forest_ids_append, forest_ids_append, forest_ids_toForest, forest_ids_toForest]
          have hperm : List.Perm ((l.ids ++ r.ids) ++ forest_ids ts)
              (forest_ids ts ++ r.ids ++ l.ids) := by
            refine List.perm_append_comm.trans ?_
            rw [List.append_assoc]
            exact List.Perm.append_left (forest_ids ts) List.perm_append_comm
          have hnd1 : (forest_ids (ts ++ r.toForest ++ l.toForest)).Nodup := by
            rw [hids1]
            exact hperm.nodup_iff.mp htail
          have hinot : i ∉ forest_ids (ts ++ r.toForest ++ l.toForest) := by
            rw [hids1]
            intro hc
            exact hi (hperm.symm.subset hc)
          have hframe : ∀ j, j ∈ forest_ids (ts ++ r.toForest ++ l.toForest) →
              (a.set i (swap_node n))[j]? = a[j]? := by
            intro j hj
            exact List.getElem?_set_ne (fun c => hinot (by rw [c]; exact hj))
          have hrep1 : forest_rep (a.set i (swap_node n)) (ts ++ r.toForest ++ l.toForest)
              (q ++ n.right.toList ++ n.left.toList) = true :=
            forest_rep_congr hframe hrep0
          have hm1 := ih (ts ++ r.toForest ++ l.toForest) (a.set i (swap_node n))
            (q ++ n.right.toList ++ n.left.toList) a' hrep1 hnd1 h
          have hfin := mirrored_set_left hn hinot hm1
          refine mirrored_congr_pred (fun j => ?_) hfin
          rw [forest_ids_cons, hids1]
          simp only [OTree.ids, List.cons_append, List.mem_cons, List.mem_append]
          tauto

/-- Specialisation of `invert_iterative_mirrors` to the singleton starting
queue `[root]` used by `BinaryTree::invert_iterative`. -/
theorem invert_iterative_mirrors_single {fuel : Nat} {t : OTree} {a : Arena} {i : Nat}
    {a' : Arena} (hrep : represents a t (some i) = true) (hnd : t.ids.Nodup)
    (h : invert_iterative a fuel [i] = some a') :
    MirroredOn a a' (· ∈ t.ids) := by
  have hq : forest_rep a [t] [i] = true := by
    simp [forest_rep, hrep]
  have hnd' : (forest_ids [t]).Nodup := by
    rw [forest_ids_cons]
    simpa [forest_ids] using hnd
  refine mirrored_congr_pred (fun j => ?_) (invert_iterative_mirrors fuel [t] a [i] a' hq hnd' h)
  rw [forest_ids_cons]
  simp [forest_ids]

/-- A three-node concrete tree used to instantiate the universally quantified
inversion theorems. -/
def demo_arena : Arena :=
  [{ name := "a", data := 0, parent := none, left := some 1, right := some 2 },
   { name := "b", data := 1, parent := some 0, left := none, right := none },
   { name := "c", data := 2, parent := some 0, left := none, right := none }]

/-- Skeleton of `demo_arena` rooted at index 0. -/
def demo_tree : OTree := .node 0 (.node 1 .nil .nil) (.node 2 .nil .nil)

/-- `demo_arena` with the root's children swapped — the result of either
inversion. -/
def demo_arena_inverted : Arena :=
  [{ name := "a", data := 0, parent := none, left := some 2, right := some 1 },
   { name := "b", data := 1, parent := some 0, left := none, right := none },
   { name := "c", data := 2, parent := some 0, left := none, right := none }]

/-- C3: on any finite acyclic binary tree (a subtree represented by a
duplicate-free skeleton `t`), successful runs of `invert_recursive` and
`invert_iterative` from the same node produce the same arena; that arena
represents the mirror skeleton (every reachable node's children swapped,
recursively), every node keeps its label, key and parent link, nodes of the
subtree change only by the swap, and nodes outside it do not change at all. -/
theorem invert_variants_equivalent (t : OTree) (a : Arena) (i fuel1 fuel2 : Nat)
    (a1 a2 : Arena)
    (hrep : represents a t (some i) = true) (hnd : t.ids.Nodup)
    (h1 : invert_recursive a fuel1 i = some a1)
    (h2 : invert_iterative a fuel2 [i] = some a2) :
    a1 = a2 ∧
    represents a1 t.mirror (some i) = true ∧
    (∀ (j : Nat) (n : BinaryTreeNode), a[j]? = some n → ∃ n' : BinaryTreeNode,
      a1[j]? = some n' ∧
      n'.name = n.name ∧ n'.data = n.data ∧ n'.parent = n.parent) ∧
    (∀ j, j ∈ t.ids → a1[j]? = (a[j]?).map swap_node) ∧
    (∀ j, j ∉ t.ids → a1[j]? = a[j]?) := by
  have hm1 := invert_recursive_mirrors t a i fuel1 a1 hrep hnd h1
  have hm2 := invert_iterative_mirrors_single hrep hnd h2
  refine ⟨?_, ?_, ?_, fun j hj => (hm1.2 j).1 hj, fun j hj => (hm1.2 j).2 hj⟩
  · refine List.ext_getElem? (fun j => ?_)
    by_cases hj : j ∈ t.ids
    · rw [(hm1.2 j).1 hj, (hm2.2 j).1 hj]
    · rw [(hm1.2 j).2 hj, (hm2.2 j).2 hj]
  · exact represents_mirror t a a1 (some i) (· ∈ t.ids) hrep (fun j hj => hj) hm1
  · intro j n hn
    by_cases hj : j ∈ t.ids
    · refine ⟨swap_node n, ?_, rfl, rfl, rfl⟩
      rw [(hm1.2 j).1 hj, hn]
      rfl
    · exact ⟨n, by rw [(hm1.2 j).2 hj, hn], rfl, rfl, rfl⟩

/-- Witness for `invert_variants_equivalent` on the three-node tree. -/
theorem invert_variants_equivalent_witness :
    demo_arena_inverted = demo_arena_inverted ∧
    represents demo_arena_inverted demo_tree.mirror (some 0) = true ∧
    (∀ (j : Nat) (n : BinaryTreeNode), demo_arena[j]? = some n →
      ∃ n' : BinaryTreeNode, demo_arena_inverted[j]? = some n' ∧
      n'.name = n.name ∧ n'.data = n.data ∧ n'.parent = n.parent) ∧
    (∀ j, j ∈ demo_tree.ids → demo_arena_inverted[j]? = (demo_arena[j]?).map swap_node) ∧
    (∀ j, j ∉ demo_tree.ids → demo_arena_inverted[j]? = demo_arena[j]?) :=
  invert_variants_equivalent demo_tree demo_arena 0 3 3
    demo_arena_inverted demo_arena_inverted
    (by decide) (by decide) (by decide) (by decide)

/-- C4: on any finite acyclic binary tree with duplicate-free skeleton,
inverting twice (with either variant both times) restores the arena exactly,
so `flatten_inorder` after the double inversion returns the same sequence as
`flatten_inorder` on the original tree, for every fuel. -/
theorem invert_twice_restores_inorder (t : OTree) (a : Arena) (i : Nat)
    (hrep : represents a t (some i) = true) (hnd : t.ids.Nodup) :
    (∀ fuel1 fuel2 a1 a2,
      invert_recursive a fuel1 i = some a1 →
      invert_recursive a1 fuel2 i = some a2 →
      a2 = a ∧ ∀ fuel, flatten_inorder a2 fuel i = flatten_inorder a fuel i) ∧
    (∀ fuel1 fuel2 a1 a2,
      invert_iterative a fuel1 [i] = some a1 →
      invert_iterative a1 fuel2 [i] = some a2 →
      a2 = a ∧ ∀ fuel, flatten_inorder a2 fuel i = flatten_inorder a fuel i) := by
  have hndm : t.mirror.ids.Nodup := (ids_mirror_perm t).nodup_iff.mpr hnd
  constructor
  · intro fuel1 fuel2 a1 a2 h1 h2
    have hm1 := invert_recursive_mirrors t a i fuel1 a1 hrep hnd h1
    have hrepm := represents_mirror t a a1 (some i) (· ∈ t.ids) hrep (fun j hj => hj) hm1
    have hm2' := invert_recursive_mirrors t.mirror a1 i fuel2 a2 hrepm hndm h2
    have heq : a2 = a :=
      mirrored_twice_eq hm1 hm2' (fun j => (mem_ids_mirror t j).symm)
    exact ⟨heq, fun fuel => by rw [heq]⟩
  · intro fuel1 fuel2 a1 a2 h1 h2
    have hm1 := invert_iterative_mirrors_single hrep hnd h1
    have hrepm := represents_mirror t a a1 (some i) (· ∈ t.ids) hrep (fun j hj => hj) hm1
    have hm2' := invert_iterative_mirrors_single hrepm hndm h2
    have heq : a2 = a :=
      mirrored_twice_eq hm1 hm2' (fun j => (mem_ids_mirror t j).symm)
    exact ⟨heq, fun fuel => by rw [heq]⟩

/-- Witness for `invert_twice_restores_inorder` on the three-node tree. -/
theorem invert_twice_restores_inorder_witness :
    demo_arena = demo_arena ∧
    ∀ fuel, flatten_inorder demo_arena fuel 0 = flatten_inorder demo_arena fuel 0 :=
  (invert_twice_restores_inorder demo_tree demo_arena 0 (by decide) (by decide)).1
    3 3 demo_arena_inverted demo_arena (by decide) (by decide)

/-! ## Correctness of `assign_parents` -/

/-- The arena index at the root of a skeleton, if any. -/
def OTree.rootId : OTree → Option Nat
  | .nil => none
  | .node i _ _ => some i

/-- All (child index, parent index) pairs of a skeleton. -/
def child_edges : OTree → List (Nat × Nat)
  | .nil => []
  | .node i l r =>
    (l.rootId.toList.map fun c => (c, i)) ++ (r.rootId.toList.map fun c => (c, i)) ++
    child_edges l ++ child_edges r

/-- All (child, parent) pairs of a forest. -/
def forest_edges (ts : List OTree) : List (Nat × Nat) := (ts.map child_edges).flatten

theorem forest_edges_cons (t : OTree) (ts : List OTree) :
    forest_edges (t :: ts) = child_edges t ++ forest_edges ts := by
  simp [forest_edges]

theorem forest_edges_append (ts1 ts2 : List OTree) :
    forest_edges (ts1 ++ ts2) = forest_edges ts1 ++ forest_edges ts2 := by
  simp [forest_edges]

theorem forest_edges_toForest (t : OTree) : forest_edges t.toForest = child_edges t := by
  cases t <;> simp [OTree.toForest, forest_edges, child_edges]

theorem rootId_mem {t : OTree} {c : Nat} (h : t.rootId = some c) : c ∈ t.ids := by
  cases t with
  | nil => simp [OTree.rootId] at h
  | node i l r =>
    simp only [OTree.rootId, Option.some.injEq] at h
    simp [OTree.ids, ← h]

theorem represents_rootId {a : Arena} {t : OTree} {o : Option Nat}
    (h : represents a t o = true) : o = t.rootId := by
  cases t with
  | nil => rw [represents_nil_iff] at h; rw [h]; rfl
  | node i l r =>
    rw [represents_node_iff] at h
    rw [h.1]
    rfl

theorem edge_child_mem : ∀ (t : OTree) (c p : Nat), (c, p) ∈ child_edges t → c ∈ t.ids := by
  intro t
  induction t with
  | nil => intro c p h; simp [child_edges] at h
  | node i l r ihl ihr =>
    intro c p h
    simp only [child_edges, List.mem_append, List.mem_map, Option.mem_toList] at h
    simp only [OTree.ids, List.mem_cons, List.mem_append]
    rcases h with ((⟨x, hx, hxc⟩ | ⟨x, hx, hxc⟩) | hc) | hc
    · obtain ⟨rfl, _⟩ := Prod.mk.injEq .. ▸ hxc
      exact Or.inr (Or.inl (rootId_mem hx))
    · obtain ⟨rfl, _⟩ := Prod.mk.injEq .. ▸ hxc
      exact Or.inr (Or.inr (rootId_mem hx))
    · exact Or.inr (Or.inl (ihl c p hc))
    · exact Or.inr (Or.inr (ihr c p hc))

theorem edge_child_mem_children (i : Nat) (l r : OTree) (c p : Nat)
    (h : (c, p) ∈ child_edges (.node i l r)) : c ∈ l.ids ++ r.ids := by
  simp only [child_edges, List.mem_append, List.mem_map, Option.mem_toList] at h
  simp only [List.mem_append]
  rcases h with ((⟨x, hx, hxc⟩ | ⟨x, hx, hxc⟩) | hc) | hc
  · obtain ⟨rfl, _⟩ := Prod.mk.injEq .. ▸ hxc
    exact Or.inl (rootId_mem hx)
  · obtain ⟨rfl, _⟩ := Prod.mk.injEq .. ▸ hxc
    exact Or.inr (rootId_mem hx)
  · exact Or.inl (edge_child_mem l c p hc)
  · exact Or.inr (edge_child_mem r c p hc)

theorem forest_edge_child_mem {ts : List OTree} {c p : Nat}
    (h : (c, p) ∈ forest_edges ts) : c ∈ forest_ids ts := by
  induction ts with
  | nil => simp [forest_edges] at h
  | cons t ts ih =>
    rw [forest_edges_cons] at h
    rw [forest_ids_cons]
    rcases List.mem_append.mp h with hc | hc
    · exact List.mem_append.mpr (Or.inl (edge_child_mem t c p hc))
    · exact List.mem_append.mpr (Or.inr (ih hc))

/-- Forgetting the parent pointer of a node. -/
def strip (n : BinaryTreeNode) : BinaryTreeNode := { n with parent := none }

/-- `represents` only inspects `left`/`right`, so arenas equal up to parent
pointers represent the same skeletons. -/
theorem represents_strip_congr (a a' : Arena)
    (hsame : ∀ j : Nat, (a'[j]?).map strip = (a[j]?).map strip) :
    ∀ (t : OTree) (o : Option Nat), represents a t o = true → represents a' t o = true := by
  intro t
  induction t with
  | nil => intro o h; rw [represents_nil_iff] at h ⊢; exact h
  | node i l r ihl ihr =>
    intro o h
    rw [represents_node_iff] at h ⊢
    obtain ⟨rfl, n, hn, h1, h2⟩ := h
    have hi := hsame i
    rw [hn] at hi
    cases hn' : a'[i]? with
    | none => rw [hn'] at hi; simp at hi
    | some n' =>
      rw [hn'] at hi
      simp only [Option.map_some', Option.some.injEq] at hi
      have hleft0 := congrArg BinaryTreeNode.left hi
      have hright0 := congrArg BinaryTreeNode.right hi
      have hleft : n'.left = n.left := hleft0
      have hright : n'.right = n.right := hright0
      exact ⟨rfl, n', rfl, hleft ▸ ihl n.left h1, hright ▸ ihr n.right h2⟩

theorem forest_rep_strip_congr {a a' : Arena}
    (hsame : ∀ j : Nat, (a'[j]?).map strip = (a[j]?).map strip) :
    ∀ {ts : List OTree} {q : List Nat},
      forest_rep a ts q = true → forest_rep a' ts q = true := by
  intro ts
  induction ts with
  | nil =>
    intro q h
    cases q with
    | nil => rfl
    | cons i q => simp [forest_rep] at h
  | cons t ts ih =>
    intro q h
    cases q with
    | nil => simp [forest_rep] at h
    | cons i q =>
      simp only [forest_rep, Bool.and_eq_true] at h ⊢
      exact ⟨represents_strip_congr a a' hsame t (some i) h.1, ih h.2⟩

/-- Overwriting only the `parent` field leaves the stripped arena unchanged. -/
theorem strip_set_parent {a : Arena} {c : Nat} {cn : BinaryTreeNode} (p : Option Nat)
    (hc : a[c]? = some cn) :
    ∀ j : Nat, ((a.set c { cn with parent := p })[j]?).map strip = (a[j]?).map strip := by
  intro j
  by_cases hj : c = j
  · subst hj
    rw [List.getElem?_set_self (List.getElem?_eq_some.mp hc).1, hc]
    rfl
  · rw [List.getElem?_set_ne hj]

/-- Effect of one child-assignment step of `assign_parents`: the child (if
present and represented) gets `parent := some i` and is enqueued; nothing
else changes, and stripped entries never change. -/
theorem parent_step (a : Arena) (i : Nat) (q : List Nat) {t : OTree} {o : Option Nat}
    (hrep : represents a t o = true) :
    ∃ a1 : Arena,
      assign_child a i q o = some ((a1, q ++ o.toList) : Arena × List Nat) ∧
      a1.length = a.length ∧
      (∀ j : Nat, (a1[j]?).map strip = (a[j]?).map strip) ∧
      (∀ j : Nat, j ∉ o.toList → a1[j]? = a[j]?) ∧
      (∀ c : Nat, o = some c →
        ∃ cn, a[c]? = some cn ∧ a1[c]? = some { cn with parent := some i }) := by
  cases o with
  | none =>
    exact ⟨a, by simp [assign_child], rfl, fun j => rfl, fun j _ => rfl,
      fun c hc => absurd hc (by simp)⟩
  | some c =>
    cases t with
    | nil => rw [represents_nil_iff] at hrep; exact absurd hrep (by simp)
    | node tid l r =>
      rw [represents_node_iff] at hrep
      obtain ⟨hc, cn, hcn, _, _⟩ := hrep
      have hct : c = tid := Option.some.inj hc
      subst hct
      refine ⟨a.set c { cn with parent := some i }, by simp [assign_child, hcn],
        List.length_set a c _,
        strip_set_parent (some i) hcn, ?_, ?_⟩
      · intro j hj
        have hne : c ≠ j := fun h => hj (by simp [Option.toList, h])
        exact List.getElem?_set_ne hne
      · intro c' hc'
        have hcc : c = c' := Option.some.inj hc'
        subst hcc
        exact ⟨cn, hcn, List.getElem?_set_self (List.getElem?_eq_some.mp hcn).1⟩

theorem mem_map_fst {es : List (Nat × Nat)} {x : Nat}
    (hx : x ∈ es.map Prod.fst) : ∃ p', (x, p') ∈ es := by
  obtain ⟨⟨x', p'⟩, hmem, hfst⟩ := List.mem_map.mp hx
  cases hfst
  exact ⟨p', hmem⟩

theorem child_edge_not_root {l : OTree} {c p : Nat} (hnd : l.ids.Nodup)
    (h : (c, p) ∈ child_edges l) :
    c ∈ l.ids ∧ ∀ c0, l.rootId = some c0 → c ≠ c0 := by
  cases l with
  | nil => simp [child_edges] at h
  | node lc ll lr =>
    have hmem := edge_child_mem_children lc ll lr c p h
    simp only [OTree.ids] at hnd
    have hroot_notin := (List.nodup_cons.mp hnd).1
    refine ⟨by simp [OTree.ids]; right; exact List.mem_append.mp hmem, ?_⟩
    intro c0 hc0 hcc
    simp only [OTree.rootId, Option.some.injEq] at hc0
    subst hc0
    subst hcc
    exact hroot_notin hmem

/-- Invariant of the `assign_parents` breadth-first loop: a successful run on
a queue representing a duplicate-free forest sets each forest child's
`parent` to its tree parent, touches nothing else, and never changes any
field other than `parent`. -/
theorem assign_parents_main :
    ∀ (fuel : Nat) (ts : List OTree) (a : Arena) (q : List Nat) (a' : Arena),
      forest_rep a ts q = true → (forest_ids ts).Nodup →
      assign_parents a fuel q = some a' →
      a'.length = a.length ∧
      (∀ j : Nat, (a'[j]?).map strip = (a[j]?).map strip) ∧
      (∀ j : Nat, j ∉ (forest_edges ts).map Prod.fst → a'[j]? = a[j]?) ∧
      (∀ c p : Nat, (c, p) ∈ forest_edges ts →
        ∃ n, a[c]? = some n ∧ a'[c]? = some { n with parent := some p }) := by
  intro fuel
  induction fuel with
  | zero =>
    intro ts a q a' hrep hnd h
    cases q with
    | nil =>
      obtain rfl := forest_rep_empty_queue hrep
      have ha : a' = a := (Option.some.inj h).symm
      exact ⟨by rw [ha], fun j => by rw [ha], fun j _ => by rw [ha],
        fun c p hc => by simp [forest_edges] at hc⟩
    | cons i q => simp [assign_parents] at h
  | succ fuel ih =>
    intro ts a q a' hrep hnd h
    cases q with
    | nil =>
      obtain rfl := forest_rep_empty_queue hrep
      have ha : a' = a := (Option.some.inj h).symm
      exact ⟨by rw [ha], fun j => by rw [ha], fun j _ => by rw [ha],
        fun c p hc => by simp [forest_edges] at hc⟩
    | cons i q =>
      cases ts with
      | nil => simp [forest_rep] at hrep
      | cons t ts =>
        simp only [forest_rep, Bool.and_eq_true] at hrep
        obtain ⟨hrt, hrts⟩ := hrep
        cases t with
        | nil => exact absurd ((represents_nil_iff a (some i)).mp hrt) (by simp)
        | node tid l r =>
          rw [represents_node_iff] at hrt
          obtain ⟨hti, n, hn, hrl, hrr⟩ := hrt
          obtain rfl : i = tid := Option.some.inj hti
          have hlroot : n.left = l.rootId := represents_rootId hrl
          have hrroot : n.right = r.rootId := represents_rootId hrr
          -- distinctness bookkeeping
          rw [forest_ids_cons] at hnd
          simp only [OTree.ids, List.cons_append] at hnd
          have hi := (List.nodup_cons.mp hnd).1
          have htail := (List.nodup_cons.mp hnd).2
          have hndl_lr := (List.nodup_append.mp htail).1
          have hnd_ts := (List.nodup_append.mp htail).2.1
          have hdisj_lr_ts := (List.nodup_append.mp htail).2.2
          have hndl : l.ids.Nodup := (List.nodup_append.mp hndl_lr).1
          have hndr : r.ids.Nodup := (List.nodup_append.mp hndl_lr).2.1
          have hdisj_l_r : l.ids.Disjoint r.ids := (List.nodup_append.mp hndl_lr).2.2
          -- run one loop iteration
          simp only [assign_parents] at h
          rw [hn] at h
          simp only [] at h
          obtain ⟨a1, heq1, hlen1, hstrip1, hfr1, hset1⟩ := parent_step a i q hrl
          rw [heq1] at h
          simp only [] at h
          have hrr1 : represents a1 r n.right = true :=
            represents_strip_congr a a1 hstrip1 r n.right hrr
          obtain ⟨a2, heq2, hlen2, hstrip2, hfr2, hset2⟩ :=
            parent_step a1 i (q ++ n.left.toList) hrr1
          rw [heq2] at h
          simp only [] at h
          -- the remaining queue and forest
          have hstrip12 : ∀ j : Nat, (a2[j]?).map strip = (a[j]?).map strip :=
            fun j => (hstrip2 j).trans (hstrip1 j)
          have hts2 : forest_rep a2 (ts ++ l.toForest ++ r.toForest)
              ((q ++ n.left.toList) ++ n.right.toList) = true := by
            refine forest_rep_append (forest_rep_append ?_ ?_) ?_
            · exact forest_rep_strip_congr hstrip12 hrts
            · exact forest_rep_child (represents_strip_congr a a2 hstrip12 l n.left hrl)
            · exact forest_rep_child (represents_strip_congr a a2 hstrip12 r n.right hrr)
          have hids2 : forest_ids (ts ++ l.toForest ++ r.toForest) =
              forest_ids ts ++ l.ids ++ r.ids := by
            rw [forest_ids_append, forest_ids_append, forest_ids_toForest, forest_ids_toForest]
          have hperm : List.Perm ((l.ids ++ r.ids) ++ forest_ids ts)
              (forest_ids ts ++ l.ids ++ r.ids) :=
            List.perm_append_comm.trans (by rw [List.append_assoc])
          have hnd2 : (forest_ids (ts ++ l.toForest ++ r.toForest)).Nodup := by
            rw [hids2]
            exact hperm.nodup_iff.mp htail
          obtain ⟨ihlen, ihstrip, ihframe, ihedges⟩ :=
            ih (ts ++ l.toForest ++ r.toForest) a2 _ a' hts2 hnd2 h
          -- decompose the edges of the processed forest
          have hedges_t : forest_edges (OTree.node i l r :: ts) =
              ((l.rootId.toList.map fun c => (c, i)) ++ (r.rootId.toList.map fun c => (c, i)) ++
               child_edges l ++ child_edges r) ++ forest_edges ts := by
            rw [forest_edges_cons]
            rfl
          have hedges_2 : forest_edges (ts ++ l.toForest ++ r.toForest) =
              forest_edges ts ++ child_edges l ++ child_edges r := by
            rw [forest_edges_append, forest_edges_append, forest_edges_toForest,
              forest_edges_toForest]
          -- a node outside the new forest's child set is untouched by the rest
          have hnot2 : ∀ x : Nat,
              (∀ p', (x, p') ∉ child_edges l) → (∀ p', (x, p') ∉ child_edges r) →
              (∀ p', (x, p') ∉ forest_edges ts) →
              x ∉ (forest_edges (ts ++ l.toForest ++ r.toForest)).map Prod.fst := by
            intro x h1 h2 h3 hc
            obtain ⟨p', hp'⟩ := mem_map_fst hc
            rw [hedges_2] at hp'
            rcases List.mem_append.mp hp' with hp' | hp'
            · rcases List.mem_append.mp hp' with hp' | hp'
              · exact h3 p' hp'
              · exact h1 p' hp'
            · exact h2 p' hp'
          -- children of the left subtree are in `l.ids` but are not its root
          have hedge_l : ∀ x p', (x, p') ∈ child_edges l →
              x ∈ l.ids ∧ ∀ c0, l.rootId = some c0 → x ≠ c0 :=
            fun x p' hx => child_edge_not_root hndl hx
          have hedge_r : ∀ x p', (x, p') ∈ child_edges r →
              x ∈ r.ids ∧ ∀ c0, r.rootId = some c0 → x ≠ c0 :=
            fun x p' hx => child_edge_not_root hndr hx
          -- a member of `l.ids` is untouched by the right-child step
          have hskip_r : ∀ x : Nat, x ∈ l.ids → a2[x]? = a1[x]? := by
            intro x hx
            refine hfr2 x ?_
            rw [hrroot]
            intro hc
            cases hc0 : r.rootId with
            | none => rw [hc0] at hc; simp [Option.toList] at hc
            | some c0 =>
              rw [hc0] at hc
              simp only [Option.toList, List.mem_singleton] at hc
              subst hc
              exact hdisj_l_r hx (rootId_mem hc0)
          have hskip_l : ∀ x : Nat, x ∈ r.ids → a1[x]? = a[x]? := by
            intro x hx
            refine hfr1 x ?_
            rw [hlroot]
            intro hc
            cases hc0 : l.rootId with
            | none => rw [hc0] at hc; simp [Option.toList] at hc
            | some c0 =>
              rw [hc0] at hc
              simp only [Option.toList, List.mem_singleton] at hc
              subst hc
              exact hdisj_l_r (rootId_mem hc0) hx
          have hskip_ts_r : ∀ x : Nat, x ∈ forest_ids ts → a2[x]? = a1[x]? := by
            intro x hx
            refine hfr2 x ?_
            rw [hrroot]
            intro hc
            cases hc0 : r.rootId with
            | none => rw [hc0] at hc; simp [Option.toList] at hc
            | some c0 =>
              rw [hc0] at hc
              simp only [Option.toList, List.mem_singleton] at hc
              subst hc
              exact hdisj_lr_ts (List.mem_append.mpr (Or.inr (rootId_mem hc0))) hx
          have hskip_ts_l : ∀ x : Nat, x ∈ forest_ids ts → a1[x]? = a[x]? := by
            intro x hx
            refine hfr1 x ?_
            rw [hlroot]
            intro hc
            cases hc0 : l.rootId with
            | none => rw [hc0] at hc; simp [Option.toList] at hc
            | some c0 =>
              rw [hc0] at hc
              simp only [Option.toList, List.mem_singleton] at hc
              subst hc
              exact hdisj_lr_ts (List.mem_append.mpr (Or.inl (rootId_mem hc0))) hx
          -- a direct-child index is exactly a member of the rootId lists
          have hmem_map : ∀ (o : Option Nat) (x p' : Nat),
              (x, p') ∈ (o.toList.map fun c => ((c, i) : Nat × Nat)) → o = some x ∧ p' = i := by
            intro o x p' hx
            obtain ⟨c0, hc0, heq⟩ := List.mem_map.mp hx
            have h1 : c0 = x := congrArg Prod.fst heq
            have h2 : i = p' := congrArg Prod.snd heq
            subst h1
            exact ⟨by simpa using hc0, h2.symm⟩
          have hmap_intro : ∀ (o : Option Nat) (x : Nat),
              o = some x → (x, i) ∈ (o.toList.map fun c => ((c, i) : Nat × Nat)) := by
            intro o x hx
            subst hx
            simp
          refine ⟨by rw [ihlen, hlen2, hlen1], fun j => (ihstrip j).trans (hstrip12 j), ?_, ?_⟩
          · -- frame clause
            intro j hj
            rw [hedges_t] at hj
            have hj' : ∀ p' : Nat,
                (j, p') ∉ (l.rootId.toList.map fun c => ((c, i) : Nat × Nat)) ∧
                (j, p') ∉ (r.rootId.toList.map fun c => ((c, i) : Nat × Nat)) ∧
                (j, p') ∉ child_edges l ∧ (j, p') ∉ child_edges r ∧
                (j, p') ∉ forest_edges ts := by
              intro p'
              refine ⟨?_, ?_, ?_, ?_, ?_⟩ <;>
                (intro hc
                 apply hj
                 refine List.mem_map.mpr ⟨(j, p'), ?_, rfl⟩
                 simp only [List.mem_append]
                 tauto)
            have hjts2 : j ∉ (forest_edges (ts ++ l.toForest ++ r.toForest)).map Prod.fst :=
              hnot2 j (fun p' => (hj' p').2.2.1) (fun p' => (hj' p').2.2.2.1)
                (fun p' => (hj' p').2.2.2.2)
            have e2 := ihframe j hjts2
            have e1 : a2[j]? = a1[j]? := by
              refine hfr2 j ?_
              rw [hrroot]
              intro hc
              cases hc0 : r.rootId with
              | none => rw [hc0] at hc; simp [Option.toList] at hc
              | some c0 =>
                rw [hc0] at hc
                simp only [Option.toList, List.mem_singleton] at hc
                subst hc
                exact (hj' i).2.1 (hmap_intro r.rootId j hc0)
            have e0 : a1[j]? = a[j]? := by
              refine hfr1 j ?_
              rw [hlroot]
              intro hc
              cases hc0 : l.rootId with
              | none => rw [hc0] at hc; simp [Option.toList] at hc
              | some c0 =>
                rw [hc0] at hc
                simp only [Option.toList, List.mem_singleton] at hc
                subst hc
                exact (hj' i).1 (hmap_intro l.rootId j hc0)
            rw [e2, e1, e0]
          · -- edge clause
            intro c p hcp
            rw [hedges_t] at hcp
            simp only [List.mem_append] at hcp
            have hfst_sub : ∀ x px : Nat, (x, px) ∈ forest_edges ts → x ∈ forest_ids ts :=
              fun x px hx => forest_edge_child_mem hx
            rcases hcp with ((((hcp | hcp) | hcp_l) | hcp_r) | hcp_ts)
            · -- direct left edge
              obtain ⟨hlc, hpi⟩ := hmem_map l.rootId c p hcp
              obtain ⟨cn, hcn, hcn1⟩ := hset1 c (by rw [hlroot, hlc])
              have hmem_c : c ∈ l.ids := rootId_mem hlc
              have h2c : a2[c]? = a1[c]? := hskip_r c hmem_c
              have h'c : a'[c]? = a2[c]? := by
                refine ihframe c (hnot2 c ?_ ?_ ?_)
                · intro p' hp'
                  exact (hedge_l c p' hp').2 c hlc rfl
                · intro p' hp'
                  exact hdisj_l_r hmem_c (hedge_r c p' hp').1
                · intro p' hp'
                  exact hdisj_lr_ts (List.mem_append.mpr (Or.inl hmem_c)) (hfst_sub c p' hp')
              subst hpi
              exact ⟨cn, hcn, by rw [h'c, h2c, hcn1]⟩
            · -- direct right edge
              obtain ⟨hrc, hpi⟩ := hmem_map r.rootId c p hcp
              obtain ⟨cn, hcn1, hcn2⟩ := hset2 c (by rw [hrroot, hrc])
              have hmem_c : c ∈ r.ids := rootId_mem hrc
              have h1c : a1[c]? = a[c]? := hskip_l c hmem_c
              have h'c : a'[c]? = a2[c]? := by
                refine ihframe c (hnot2 c ?_ ?_ ?_)
                · intro p' hp'
                  exact hdisj_l_r (hedge_l c p' hp').1 hmem_c
                · intro p' hp'
                  exact (hedge_r c p' hp').2 c hrc rfl
                · intro p' hp'
                  exact hdisj_lr_ts (List.mem_append.mpr (Or.inr hmem_c)) (hfst_sub c p' hp')
              subst hpi
              exact ⟨cn, by rw [← h1c, hcn1], by rw [h'c, hcn2]⟩
            · -- edge inside the left subtree
              obtain ⟨n0, hn0, hn0'⟩ := ihedges c p
                (by rw [hedges_2]
                    exact List.mem_append.mpr (Or.inl (List.mem_append.mpr (Or.inr hcp_l))))
              have hmem_c : c ∈ l.ids := (hedge_l c p hcp_l).1
              have h2c : a2[c]? = a1[c]? := hskip_r c hmem_c
              have h1c : a1[c]? = a[c]? := by
                refine hfr1 c ?_
                rw [hlroot]
                intro hc
                cases hc0 : l.rootId with
                | none => rw [hc0] at hc; simp [Option.toList] at hc
                | some c0 =>
                  rw [hc0] at hc
                  simp only [Option.toList, List.mem_singleton] at hc
                  subst hc
                  exact (hedge_l c p hcp_l).2 c hc0 rfl
              exact ⟨n0, by rw [← h1c, ← h2c, hn0], hn0'⟩
            · -- edge inside the right subtree
              obtain ⟨n0, hn0, hn0'⟩ := ihedges c p
                (by rw [hedges_2]
                    exact List.mem_append.mpr (Or.inr hcp_r))
              have hmem_c : c ∈ r.ids := (hedge_r c p hcp_r).1
              have h1c : a1[c]? = a[c]? := hskip_l c hmem_c
              have h2c : a2[c]? = a1[c]? := by
                refine hfr2 c ?_
                rw [hrroot]
                intro hc
                cases hc0 : r.rootId with
                | none => rw [hc0] at hc; simp [Option.toList] at hc
                | some c0 =>
                  rw [hc0] at hc
                  simp only [Option.toList, List.mem_singleton] at hc
                  subst hc
                  exact (hedge_r c p hcp_r).2 c hc0 rfl
              exact ⟨n0, by rw [← h1c, ← h2c, hn0], hn0'⟩
            · -- edge in the tail forest
              obtain ⟨n0, hn0, hn0'⟩ := ihedges c p
                (by rw [hedges_2]
                    exact List.mem_append.mpr (Or.inl (List.mem_append.mpr (Or.inl hcp_ts))))
              have hmem_c : c ∈ forest_ids ts := forest_edge_child_mem hcp_ts
              have h2c : a2[c]? = a1[c]? := hskip_ts_r c hmem_c
              have h1c : a1[c]? = a[c]? := hskip_ts_l c hmem_c
              exact ⟨n0, by rw [← h1c, ← h2c, hn0], hn0'⟩

/-- C5: after a successful `assign_parents` run from the root of a finite
acyclic tree (duplicate-free skeleton `t`), every reachable node that has a
child is recorded as that child's parent (the child's `parent` field points
back at exactly that node), and the root's parent stays absent (fresh
`new_node`s start with no parent, and the loop never writes the root's
parent). -/
theorem assign_parents_correct (t : OTree) (a : Arena) (root fuel : Nat) (a' : Arena)
    (hrep : represents a t (some root) = true) (hnd : t.ids.Nodup)
    (hroot : ∃ n, a[root]? = some n ∧ n.parent = none)
    (h : assign_parents a fuel [root] = some a') :
    (∀ c p : Nat, (c, p) ∈ child_edges t →
      ∃ n, a[c]? = some n ∧ a'[c]? = some { n with parent := some p }) ∧
    (∃ n', a'[root]? = some n' ∧ n'.parent = none) := by
  have hq : forest_rep a [t] [root] = true := by
    simp [forest_rep, hrep]
  have hnd' : (forest_ids [t]).Nodup := by
    rw [forest_ids_cons]
    simpa [forest_ids] using hnd
  obtain ⟨_, _, hframe, hedges⟩ := assign_parents_main fuel [t] a [root] a' hq hnd' h
  constructor
  · intro c p hcp
    apply hedges
    rw [forest_edges_cons]
    exact List.mem_append.mpr (Or.inl hcp)
  · obtain ⟨n, hn, hnp⟩ := hroot
    refine ⟨n, ?_, hnp⟩
    rw [← hn]
    apply hframe
    intro hc
    obtain ⟨p', hp'⟩ := mem_map_fst hc
    rw [forest_edges_cons] at hp'
    rcases List.mem_append.mp hp' with hp' | hp'
    · have hcr := child_edge_not_root hnd hp'
      have htr : t.rootId = some root := (represents_rootId hrep).symm
      exact hcr.2 root htr rfl
    · simp [forest_edges] at hp'

/-- The three-node tree before parent assignment: children wired, parents
still at their `new_node` default. -/
def demo_arena_unparented : Arena :=
  [{ name := "a", data := 0, parent := none, left := some 1, right := some 2 },
   { name := "b", data := 1, parent := none, left := none, right := none },
   { name := "c", data := 2, parent := none, left := none, right := none }]

/-- Witness for `assign_parents_correct` on the three-node tree. -/
theorem assign_parents_correct_witness :
    (∀ c p : Nat, (c, p) ∈ child_edges demo_tree →
      ∃ n, demo_arena_unparented[c]? = some n ∧
        demo_arena[c]? = some { n with parent := some p }) ∧
    (∃ n', demo_arena[0]? = some n' ∧ n'.parent = none) :=
  assign_parents_correct demo_tree demo_arena_unparented 0 4 demo_arena
    (by decide) (by decide)
    (⟨{ name := "a", data := 0, parent := none, left := some 1, right := some 2 }, rfl, rfl⟩)
    (by decide)
